import Mathlib

/-!
Shallow embedding of `tic.py`, a timing side-channel prober.

The script repeatedly issues HTTP GET requests with candidate payloads,
averages the measured round-trip latencies over `attempts_per_char` trials,
and extends a known prefix by the first charset character whose average
latency exceeds a fixed threshold.  Network time is modelled by rationals:
a single `requests.get(..., timeout=3)` trial either completes after some
elapsed time or raises a `RequestException` after running into the
3-second timeout, in which case the measured wall-clock time is the
timeout ceiling.
-/

namespace Tic

/-- `timeout=3` in `requests.get(url, params={"q": payload}, timeout=3)`:
the per-request timeout ceiling, in seconds. -/
def timeoutCeiling : ℚ := 3

/-- `threshold = 0.17` from `tic.py` (0.17 = 17/100). -/
def threshold : ℚ := mkRat 17 100

/-- `attempts_per_char = 7` from `tic.py`. -/
def attempts_per_char : ℕ := 7

/-- `known = "C"` from `tic.py`: the seed prefix. -/
def seedKnown : String := "C"

/-- `charset = string.ascii_letters + string.digits + "{}_"` from `tic.py`:
lowercase letters, then uppercase letters, then digits, then the three
symbols. -/
def charset : List Char :=
  ("abcdefghijklmnopqrstuvwxyzABCDEFGHIJKLMNOPQRSTUVWXYZ0123456789\x7b\x7d_").toList

/-- Outcome of one `requests.get` trial inside `avg_response_time`: either
the request completes after `elapsed` seconds, or it raises a
`RequestException` (timeout, connection error); in the latter case the
`except ... pass` branch is taken and the wall clock has advanced by the
timeout ceiling. -/
inductive Trial where
  | success (elapsed : ℚ)
  | failure
deriving DecidableEq

/-- The wall-clock time `time.time() - start` recorded for one trial:
the elapsed time of a completed request, or the 3-second timeout ceiling
for a failed one. -/
def Trial.elapsed : Trial → ℚ
  | .success t => t
  | .failure => timeoutCeiling

/-- A physically meaningful trial: a completed request took between 0
seconds and the timeout ceiling. -/
def Trial.Valid : Trial → Prop
  | .success t => 0 ≤ t ∧ t ≤ timeoutCeiling
  | .failure => True

/-- `avg_response_time(payload)`: run `attempts_per_char` trials (trial `i`
behaving as `net i`), accumulate `total += time.time() - start`, and return
`total / attempts_per_char`. -/
def avg_response_time (net : ℕ → Trial) : ℚ :=
  ((List.range attempts_per_char).foldl (fun total i => total + (net i).elapsed) 0)
    / (attempts_per_char : ℚ)

/-- The sequence of trials a single call of `avg_response_time` performs:
one request per loop iteration, `attempts_per_char` in total. -/
def trialList (net : ℕ → Trial) : List Trial :=
  (List.range attempts_per_char).map net

/-- The body of the `for c in charset` loop in `tic.py`: for each character
build `payload = known + c`, measure `avg_time`, append
`(payload, avg_time)` to `candidates`, and stop with that character as soon
as `avg_time > threshold`.  `measure` abstracts `avg_response_time` as a
latency oracle on payloads; `thr` is the configured threshold. -/
def scanCharset (measure : String → ℚ) (thr : ℚ) (known : String) :
    List Char → List (String × ℚ) → Option Char × List (String × ℚ)
  | [], candidates => (none, candidates)
  | c :: rest, candidates =>
    let payload := known.push c
    let avg_time := measure payload
    if thr < avg_time then (some c, candidates ++ [(payload, avg_time)])
    else scanCharset measure thr known rest (candidates ++ [(payload, avg_time)])

/-- `discoverNextCharacter(knownPrefix)`: one full pass of the inner
charset loop starting from an empty `candidates` list, returning the
accepted character (if any) together with the measured candidates. -/
def discoverNextCharacter (measure : String → ℚ) (thr : ℚ) (cs : List Char)
    (known : String) : Option Char × List (String × ℚ) :=
  scanCharset measure thr known cs []

/-- Stable insertion (descending by the latency component) modelling how
`candidates.sort(key=lambda x: x[1], reverse=True)` places an element that
originally comes before everything in the already-sorted tail: it goes in
front of the first strictly-slower-or-equal entry, so entries with equal
latency keep their original order. -/
def insertDesc (x : String × ℚ) : List (String × ℚ) → List (String × ℚ)
  | [] => [x]
  | y :: ys => if y.2 ≤ x.2 then x :: y :: ys else y :: insertDesc x ys

/-- `candidates.sort(key=lambda x: x[1], reverse=True)`: stable sort of the
candidate list in descending order of average latency. -/
def sortDesc : List (String × ℚ) → List (String × ℚ)
  | [] => []
  | x :: xs => insertDesc x (sortDesc xs)

/-- One console line of `tic.py`, abstracted to the data it carries. -/
inductive OutEvent where
  | trying (payload : String) (avg : ℚ)
  | foundChar (c : Char) (known : String)
  | stallHeader
  | stallLine (payload : String) (t : ℚ)
  | stallFooter
  | secretLine (known : String)
deriving DecidableEq

/-- `true` exactly on the per-candidate latency line
`Trying '{payload}' → Avg time: {avg_time:.3f}s`. -/
def isTryingEvent : OutEvent → Bool
  | .trying _ _ => true
  | _ => false

/-- The `while True` loop of `tic.py`, with explicit fuel standing in for
the unbounded iteration (the script itself never bounds the number of
positions).  Each iteration rebuilds `candidates = []`, scans the charset,
and either appends the found character and continues, or prints the stall
report and stops.  The returned trace lists the console lines in order:
one `trying` line per measured candidate, a `foundChar` announcement on
acceptance, and on stall the header, the top-5 slowest candidates in
descending latency order, and the footer. -/
def runAux (measure : String → ℚ) (thr : ℚ) (cs : List Char) :
    ℕ → String → String × List OutEvent
  | 0, known => (known, [])
  | fuel + 1, known =>
    match scanCharset measure thr known cs [] with
    | (some c, candidates) =>
      let rest := runAux measure thr cs fuel (known.push c)
      (rest.1,
        (candidates.map fun pc => OutEvent.trying pc.1 pc.2)
          ++ [OutEvent.foundChar c (known.push c)] ++ rest.2)
    | (none, candidates) =>
      (known,
        (candidates.map fun pc => OutEvent.trying pc.1 pc.2)
          ++ [OutEvent.stallHeader]
          ++ (((sortDesc candidates).take 5).map fun pc => OutEvent.stallLine pc.1 pc.2)
          ++ [OutEvent.stallFooter])

/-- The whole script: run the main loop from the seed and print the final
`Secret discovered: {known}` line. -/
def run (measure : String → ℚ) (thr : ℚ) (cs : List Char) (fuel : ℕ)
    (seed : String) : String × List OutEvent :=
  let r := runAux measure thr cs fuel seed
  (r.1, r.2 ++ [OutEvent.secretLine r.1])

/-- The latency oracle of the spec scenario for the first position: 0.5
seconds on payload `"A"`, 0.1 seconds elsewhere. -/
def mockA : String → ℚ :=
  fun s => if s = "A" then mkRat 1 2 else mkRat 1 10

/-- The latency oracle of the spec scenario for the second position: 0.5
seconds on payload `"AB"` only. -/
def mockAB : String → ℚ :=
  fun s => if s = "AB" then mkRat 1 2 else mkRat 1 10

/-- A deterministic oracle that is slow exactly on the correct-prefix
extensions `"A"` and `"AB"` of the target `"AB"`. -/
def mockBoth : String → ℚ :=
  fun s => if s = "A" ∨ s = "AB" then mkRat 1 2 else mkRat 1 10

/-- An oracle under which every candidate is instantaneous (always below
any positive threshold). -/
def zeroMeasure : String → ℚ := fun _ => 0

/-- An oracle under which every candidate takes a full second (above the
0.17-second threshold). -/
def oneMeasure : String → ℚ := fun _ => 1

/-- A network behaviour where every trial fails with a transport error. -/
def allFailNet : ℕ → Trial := fun _ => Trial.failure

/-- A network behaviour where every trial succeeds in exactly one second. -/
def oneSecondNet : ℕ → Trial := fun _ => Trial.success 1

/-- `oneSecondNet` with its first trial replaced by a transport failure. -/
def failOneNet : ℕ → Trial :=
  fun i => if i = 0 then Trial.failure else oneSecondNet i

-- ## Helper lemmas

/-- Characterisation of the charset scan: the accepted character is the
first one (in charset order) whose measured average strictly exceeds the
threshold, and the measured candidates are exactly the initial segment of
the charset up to and including that character. -/
theorem scanCharset_spec (measure : String → ℚ) (thr : ℚ) (known : String) :
    ∀ (cs : List Char) (acc : List (String × ℚ)),
      scanCharset measure thr known cs acc
        = (cs.find? (fun c => decide (thr < measure (known.push c))),
           acc ++ ((cs.takeWhile (fun c => decide (measure (known.push c) ≤ thr)))
              ++ (cs.find? (fun c => decide (thr < measure (known.push c)))).toList).map
             (fun c => (known.push c, measure (known.push c)))) := by
  intro cs
  induction cs with
  | nil => intro acc; simp [scanCharset]
  | cons c rest ih =>
    intro acc
    by_cases h : thr < measure (known.push c)
    · simp [scanCharset, h, not_le.mpr h, List.find?, List.takeWhile]
    · have h' : measure (known.push c) ≤ thr := not_lt.mp h
      simp only [scanCharset, if_neg h, ih]
      simp [List.find?, List.takeWhile, h, h']

/-- Folding addition of `f` over a list starting from `a` is `a` plus the
sum of the mapped list. -/
theorem foldl_add_map (f : ℕ → ℚ) :
    ∀ (l : List ℕ) (a : ℚ),
      l.foldl (fun total i => total + f i) a = a + (l.map f).sum := by
  intro l
  induction l with
  | nil => intro a; simp
  | cons x xs ih => intro a; simp [ih, add_assoc]

/-- The recorded wall-clock time of a valid trial lies between 0 and the
timeout ceiling (a failed trial records exactly the ceiling). -/
theorem Trial.elapsed_bounds (t : Trial) (h : t.Valid) :
    0 ≤ t.elapsed ∧ t.elapsed ≤ timeoutCeiling := by
  cases t with
  | success e => exact h
  | failure =>
    refine ⟨?_, le_refl _⟩
    norm_num [Trial.elapsed, timeoutCeiling]

/-- `avg_response_time` is the sum of the recorded trial times divided by
the number of attempts. -/
theorem avg_response_time_eq_mean (net : ℕ → Trial) :
    avg_response_time net
      = ((trialList net).map Trial.elapsed).sum / (attempts_per_char : ℚ) := by
  simp [avg_response_time, trialList, foldl_add_map, List.map_map,
    Function.comp_def]

/-- Membership in an insertion is membership in the inserted element or
the original list. -/
theorem mem_insertDesc (x y : String × ℚ) :
    ∀ l, y ∈ insertDesc x l ↔ y = x ∨ y ∈ l := by
  intro l
  induction l with
  | nil => simp [insertDesc]
  | cons z zs ih =>
    by_cases h : z.2 ≤ x.2
    · simp [insertDesc, h]
    · simp [insertDesc, h, ih]
      tauto

/-- Inserting into a list sorted by descending latency keeps it sorted. -/
theorem insertDesc_sorted (x : String × ℚ) :
    ∀ l, l.Sorted (fun a b => b.2 ≤ a.2) →
      (insertDesc x l).Sorted (fun a b => b.2 ≤ a.2) := by
  intro l
  induction l with
  | nil => intro _; simp [insertDesc]
  | cons z zs ih =>
    intro h
    obtain ⟨hz, hzs⟩ := List.sorted_cons.mp h
    by_cases hle : z.2 ≤ x.2
    · simp only [insertDesc, if_pos hle]
      refine List.sorted_cons.mpr ⟨?_, h⟩
      intro b hb
      rcases List.mem_cons.mp hb with rfl | hb
      · exact hle
      · exact le_trans (hz b hb) hle
    · simp only [insertDesc, if_neg hle]
      refine List.sorted_cons.mpr ⟨?_, ih hzs⟩
      intro b hb
      rcases (mem_insertDesc x b zs).mp hb with rfl | hb
      · exact le_of_lt (not_le.mp hle)
      · exact hz b hb

/-- Insertion produces a permutation of consing. -/
theorem insertDesc_perm (x : String × ℚ) :
    ∀ l, List.Perm (insertDesc x l) (x :: l) := by
  intro l
  induction l with
  | nil => exact List.Perm.refl _
  | cons z zs ih =>
    by_cases h : z.2 ≤ x.2
    · simp [insertDesc, h]
    · simp only [insertDesc, if_neg h]
      exact List.Perm.trans (List.Perm.cons z ih) (List.Perm.swap x z zs)

/-- The descending sort permutes the candidate list. -/
theorem sortDesc_perm : ∀ l, List.Perm (sortDesc l) l := by
  intro l
  induction l with
  | nil => exact List.Perm.refl _
  | cons x xs ih =>
    exact List.Perm.trans (insertDesc_perm x (sortDesc xs)) (List.Perm.cons x ih)

/-- The descending sort really sorts by descending latency. -/
theorem sortDesc_sorted : ∀ l, (sortDesc l).Sorted (fun a b => b.2 ≤ a.2) := by
  intro l
  induction l with
  | nil => simp [sortDesc]
  | cons x xs ih => exact insertDesc_sorted x (sortDesc xs) ih

/-- Sorting preserves the number of candidates. -/
theorem sortDesc_length (l : List (String × ℚ)) :
    (sortDesc l).length = l.length :=
  (sortDesc_perm l).length_eq

/-- Every line produced from the candidate list is a `trying` line. -/
theorem filter_trying_map :
    ∀ l : List (String × ℚ),
      ((l.map fun pc => OutEvent.trying pc.1 pc.2).filter isTryingEvent)
        = l.map fun pc => OutEvent.trying pc.1 pc.2 := by
  intro l
  induction l with
  | nil => rfl
  | cons x xs ih => simp [List.filter, isTryingEvent, ih]

/-- No line produced from the stall report is a `trying` line. -/
theorem filter_stallLine_map :
    ∀ l : List (String × ℚ),
      ((l.map fun pc => OutEvent.stallLine pc.1 pc.2).filter isTryingEvent) = [] := by
  intro l
  induction l with
  | nil => rfl
  | cons x xs ih => simp [List.filter, isTryingEvent, ih]

/-- Unfolding one iteration of the main loop when the scan stalls. -/
theorem runAux_stall (measure : String → ℚ) (thr : ℚ) (cs : List Char)
    (fuel : ℕ) (known : String) (cands : List (String × ℚ))
    (h : scanCharset measure thr known cs [] = (none, cands)) :
    runAux measure thr cs (fuel + 1) known
      = (known,
          (cands.map fun pc => OutEvent.trying pc.1 pc.2)
            ++ [OutEvent.stallHeader]
            ++ (((sortDesc cands).take 5).map fun pc => OutEvent.stallLine pc.1 pc.2)
            ++ [OutEvent.stallFooter]) := by
  rw [runAux, h]

/-- Unfolding one iteration of the main loop when a character is found. -/
theorem runAux_found (measure : String → ℚ) (thr : ℚ) (cs : List Char)
    (fuel : ℕ) (known : String) (c : Char) (cands : List (String × ℚ))
    (h : scanCharset measure thr known cs [] = (some c, cands)) :
    runAux measure thr cs (fuel + 1) known
      = ((runAux measure thr cs fuel (known.push c)).1,
          (cands.map fun pc => OutEvent.trying pc.1 pc.2)
            ++ [OutEvent.foundChar c (known.push c)]
            ++ (runAux measure thr cs fuel (known.push c)).2) := by
  rw [runAux, h]

/-- Pushing a character appends it to the string's character data. -/
theorem data_push (s : String) (c : Char) :
    (String.push s c).data = s.data ++ [c] := rfl

/-- Whatever the oracle, the main loop only ever appends charset
characters to the known string. -/
theorem runAux_extends (measure : String → ℚ) (thr : ℚ) (cs : List Char) :
    ∀ (fuel : ℕ) (known : String),
      ∃ ext : List Char,
        ((runAux measure thr cs fuel known).1).data = known.data ++ ext
        ∧ ∀ c ∈ ext, c ∈ cs := by
  intro fuel
  induction fuel with
  | zero => intro known; exact ⟨[], by simp [runAux], by simp⟩
  | succ n ih =>
    intro known
    rcases hsc : scanCharset measure thr known cs [] with ⟨res, cands⟩
    cases res with
    | none =>
      refine ⟨[], ?_, by simp⟩
      rw [runAux_stall measure thr cs n known cands hsc]
      simp
    | some c =>
      obtain ⟨ext, hext, hmem⟩ := ih (known.push c)
      have hc : c ∈ cs := by
        have hspec := scanCharset_spec measure thr known cs []
        rw [hspec] at hsc
        have hfst : List.find? (fun x => decide (thr < measure (known.push x))) cs
            = some c := by simpa using congrArg Prod.fst hsc
        exact List.mem_of_find?_eq_some hfst
      refine ⟨c :: ext, ?_, ?_⟩
      · rw [runAux_found measure thr cs n known c cands hsc]
        simp only [hext, data_push]
        simp
      · intro x hx
        rcases List.mem_cons.mp hx with rfl | hx
        · exact hc
        · exact hmem x hx

/-- The last console line of a run always reports the final secret. -/
theorem run_getLast (measure : String → ℚ) (thr : ℚ) (cs : List Char)
    (fuel : ℕ) (seed : String) :
    (run measure thr cs fuel seed).2.getLast?
      = some (OutEvent.secretLine (run measure thr cs fuel seed).1) :=
  List.getLast?_concat _

-- ## Claim theorems

/-- C1: for every charset and known prefix, `discoverNextCharacter`
returns the first charset character, in charset iteration order, whose
measured average latency strictly exceeds the threshold, and returns
nothing if no character's average exceeds it; the measured candidates are
exactly the initial segment of the charset up to and including the
accepted character, so no later charset character at that position is
measured (short-circuit, not exhaustive-then-best). -/
theorem discover_first_exceeding (measure : String → ℚ) (thr : ℚ)
    (cs : List Char) (known : String) :
    (discoverNextCharacter measure thr cs known).1
      = cs.find? (fun c => decide (thr < measure (known.push c)))
    ∧ (discoverNextCharacter measure thr cs known).2
      = ((cs.takeWhile (fun c => decide (measure (known.push c) ≤ thr)))
          ++ (cs.find? (fun c => decide (thr < measure (known.push c)))).toList).map
         (fun c => (known.push c, measure (known.push c))) := by
  unfold discoverNextCharacter
  rw [scanCharset_spec]
  simp

/-- C5: `avg_response_time` performs exactly `attempts_per_char = 7`
request trials (no retries beyond that sampling) and returns the
arithmetic mean of the per-trial elapsed times: the sum of the trial
latencies divided by the repeat count. -/
theorem avg_response_time_mean_of_trials (net : ℕ → Trial) :
    (trialList net).length = attempts_per_char
    ∧ attempts_per_char = 7
    ∧ avg_response_time net
        = ((trialList net).map Trial.elapsed).sum / ((trialList net).length : ℚ) := by
  refine ⟨by simp [trialList], rfl, ?_⟩
  rw [avg_response_time_eq_mean]
  simp [trialList]

/-- C3: for valid trials, `avg_response_time` returns a value between 0
and the 3-second timeout ceiling, and when every trial fails with a
transport error it returns exactly the timeout ceiling — a finite value,
not an error and not infinity. -/
theorem avg_response_time_bounded (net : ℕ → Trial) :
    ((∀ i, i < attempts_per_char → (net i).Valid) →
        0 ≤ avg_response_time net ∧ avg_response_time net ≤ timeoutCeiling)
    ∧ ((∀ i, i < attempts_per_char → net i = Trial.failure) →
        avg_response_time net = timeoutCeiling) := by
  constructor
  · intro h
    have hb : ∀ t ∈ (trialList net).map Trial.elapsed,
        0 ≤ t ∧ t ≤ timeoutCeiling := by
      intro t ht
      simp only [trialList, List.map_map, List.mem_map, List.mem_range,
        Function.comp_def] at ht
      obtain ⟨i, hi, rfl⟩ := ht
      exact Trial.elapsed_bounds _ (h i hi)
    have hlen : ((trialList net).map Trial.elapsed).length = attempts_per_char := by
      simp [trialList]
    rw [avg_response_time_eq_mean]
    constructor
    · apply div_nonneg
      · exact List.sum_nonneg fun x hx => (hb x hx).1
      · norm_num [attempts_per_char]
    · rw [div_le_iff₀ (by norm_num [attempts_per_char] : (0:ℚ) < (attempts_per_char : ℚ))]
      calc ((trialList net).map Trial.elapsed).sum
          ≤ ((trialList net).map Trial.elapsed).length • timeoutCeiling :=
            List.sum_le_card_nsmul _ _ fun x hx => (hb x hx).2
        _ = timeoutCeiling * (attempts_per_char : ℚ) := by
            rw [hlen, nsmul_eq_mul, mul_comm]
  · intro h
    have h0 := h 0 (by norm_num [attempts_per_char])
    have h1 := h 1 (by norm_num [attempts_per_char])
    have h2 := h 2 (by norm_num [attempts_per_char])
    have h3 := h 3 (by norm_num [attempts_per_char])
    have h4 := h 4 (by norm_num [attempts_per_char])
    have h5 := h 5 (by norm_num [attempts_per_char])
    have h6 := h 6 (by norm_num [attempts_per_char])
    have hr : List.range attempts_per_char = [0, 1, 2, 3, 4, 5, 6] := rfl
    rw [avg_response_time_eq_mean]
    simp only [trialList, hr, List.map_cons, List.map_nil, h0, h1, h2, h3, h4,
      h5, h6]
    norm_num [Trial.elapsed, timeoutCeiling, attempts_per_char]

/-- Witness for C3: with every trial failing, the average equals the
timeout ceiling. -/
theorem avg_response_time_bounded_witness :
    avg_response_time allFailNet = timeoutCeiling :=
  (avg_response_time_bounded allFailNet).2 fun _ _ => rfl

/-- C2: the probe is deterministic — two pointwise-equal latency oracles
produce identical runs — and on the spec's mock scenario (charset
`{A, B}`, empty seed, threshold 0.3, oracle 0.5s on `"A"` and 0.1s
elsewhere) the first `discoverNextCharacter` call returns `A`; with the
oracle slow only on `"AB"` the second call returns `B`; and against the
oracle slow exactly on the correct-prefix extensions the run reconstructs
the target secret `"AB"`. -/
theorem run_deterministic_scenario :
    (∀ (m₁ m₂ : String → ℚ) (thr : ℚ) (cs : List Char) (fuel : ℕ) (seed : String),
        (∀ s, m₁ s = m₂ s) →
        run m₁ thr cs fuel seed = run m₂ thr cs fuel seed)
    ∧ (discoverNextCharacter mockA (mkRat 3 10) ['A', 'B'] "").1 = some 'A'
    ∧ (discoverNextCharacter mockAB (mkRat 3 10) ['A', 'B'] "A").1 = some 'B'
    ∧ (run mockBoth (mkRat 3 10) ['A', 'B'] 3 "").1 = "AB" := by
  refine ⟨?_, by decide, by decide, by decide⟩
  intro m₁ m₂ thr cs fuel seed h
  rw [funext h]

/-- Witness for C2: determinism applied to the mock oracle itself. -/
theorem run_deterministic_scenario_witness :
    run mockBoth (mkRat 3 10) ['A', 'B'] 3 ""
      = run mockBoth (mkRat 3 10) ['A', 'B'] 3 "" :=
  run_deterministic_scenario.1 mockBoth mockBoth (mkRat 3 10) ['A', 'B'] 3 ""
    fun _ => rfl

/-- `avg_response_time` written out over its seven trials. -/
theorem avg_response_time_expand (net : ℕ → Trial) :
    avg_response_time net
      = (0 + (net 0).elapsed + (net 1).elapsed + (net 2).elapsed
          + (net 3).elapsed + (net 4).elapsed + (net 5).elapsed
          + (net 6).elapsed) / ((7 : ℕ) : ℚ) := rfl

/-- C4: a failing request inside a single trial is absorbed at the trial
level: it contributes the 3-second timeout ceiling as that trial's latency
while the divisor stays the full repeat count, so turning one successful
trial into a failure shifts the candidate's average by
`(ceiling - elapsed) / attempts_per_char` instead of discarding the trial;
and the probe never aborts - the loop hands back the current prefix only
when the charset scan stalls. -/
theorem failure_absorbed (net : ℕ → Trial) (k : ℕ) (t : ℚ)
    (hk : k < attempts_per_char) (ht : net k = Trial.success t) :
    avg_response_time (fun i => if i = k then Trial.failure else net i)
      = avg_response_time net + (timeoutCeiling - t) / (attempts_per_char : ℚ)
    ∧ ∀ (measure : String → ℚ) (thr : ℚ) (cs : List Char) (fuel : ℕ)
        (known : String),
        (runAux measure thr cs (fuel + 1) known).1 = known →
        (scanCharset measure thr known cs []).1 = none := by
  constructor
  · rw [avg_response_time_expand, avg_response_time_expand]
    have hk7 : k < 7 := hk
    interval_cases k <;>
      · simp only [ht, reduceIte, Trial.elapsed]
        simp only [attempts_per_char, timeoutCeiling]
        push_cast
        ring
  · intro measure thr cs fuel known hknown
    rcases hsc : scanCharset measure thr known cs [] with ⟨res, cands⟩
    cases res with
    | none => simp [hsc]
    | some c =>
      exfalso
      obtain ⟨ext, hext, -⟩ := runAux_extends measure thr cs fuel (known.push c)
      rw [runAux_found measure thr cs fuel known c cands hsc] at hknown
      have hdata := congrArg String.data hknown
      simp only at hdata
      rw [hext, data_push] at hdata
      have hlen := congrArg List.length hdata
      simp at hlen

/-- Witness for C4: failing the first of seven one-second trials moves the
average up by `(3 - 1) / 7`. -/
theorem failure_absorbed_witness :
    avg_response_time failOneNet
      = avg_response_time oneSecondNet
        + (timeoutCeiling - 1) / (attempts_per_char : ℚ) :=
  (failure_absorbed oneSecondNet 0 1 (by norm_num [attempts_per_char]) rfl).1

/-- C6: if no charset character's average exceeds the threshold at a
position, the scan returns nothing, the reported top-5 list is the first
five entries of a descending-by-latency sort (a permutation of the
measured candidates, so it really lists the slowest ones), and the main
loop terminates with the known prefix unchanged. -/
theorem stall_reports_top5_sorted (measure : String → ℚ) (thr : ℚ)
    (cs : List Char) (known : String) (fuel : ℕ)
    (h : ∀ c ∈ cs, measure (known.push c) ≤ thr) :
    (discoverNextCharacter measure thr cs known).1 = none
    ∧ ((sortDesc (discoverNextCharacter measure thr cs known).2).take 5).Sorted
        (fun a b => b.2 ≤ a.2)
    ∧ List.Perm (sortDesc (discoverNextCharacter measure thr cs known).2)
        (discoverNextCharacter measure thr cs known).2
    ∧ (runAux measure thr cs (fuel + 1) known).1 = known := by
  have hfind : cs.find? (fun c => decide (thr < measure (known.push c))) = none := by
    rw [List.find?_eq_none]
    intro x hx
    simpa using not_lt.mpr (h x hx)
  have hfst : (discoverNextCharacter measure thr cs known).1 = none := by
    unfold discoverNextCharacter
    rw [scanCharset_spec]
    simpa using hfind
  refine ⟨hfst, ?_, sortDesc_perm _, ?_⟩
  · exact List.Pairwise.sublist (List.take_sublist _ _) (sortDesc_sorted _)
  · rcases hsc : scanCharset measure thr known cs [] with ⟨res, cands⟩
    have hres : res = none := by
      have h' := hfst
      unfold discoverNextCharacter at h'
      rw [hsc] at h'
      simpa using h'
    subst hres
    rw [runAux_stall measure thr cs fuel known cands hsc]

/-- Witness for C6: with an instantaneous oracle, no character of the
configured charset crosses the 0.17-second threshold. -/
theorem stall_reports_top5_sorted_witness :
    (discoverNextCharacter zeroMeasure threshold charset "C").1 = none :=
  (stall_reports_top5_sorted zeroMeasure threshold charset "C" 0
    fun c _ => by simp only [zeroMeasure]; decide).1

/-- C7: when the scan returns nothing at a position, the run terminates
with the known prefix exactly as it was before that position was
attempted, and that unchanged prefix is reported on the final line. -/
theorem stall_keeps_known (measure : String → ℚ) (thr : ℚ) (cs : List Char)
    (fuel : ℕ) (known : String)
    (h : (scanCharset measure thr known cs []).1 = none) :
    (run measure thr cs (fuel + 1) known).1 = known
    ∧ (run measure thr cs (fuel + 1) known).2.getLast?
        = some (OutEvent.secretLine known) := by
  rcases hsc : scanCharset measure thr known cs [] with ⟨res, cands⟩
  rw [hsc] at h
  cases res with
  | some c => simp at h
  | none =>
    have h1 := runAux_stall measure thr cs fuel known cands hsc
    have hfst : (run measure thr cs (fuel + 1) known).1 = known := by
      simp [run, h1]
    refine ⟨hfst, ?_⟩
    rw [run_getLast, hfst]

/-- Witness for C7: stalling on a single-character charset keeps the empty
seed prefix. -/
theorem stall_keeps_known_witness :
    (run zeroMeasure threshold ['A'] (0 + 1) "").1 = "" :=
  (stall_keeps_known zeroMeasure threshold ['A'] 0 "" (by decide)).1

/-- C8: the known string starts from the seed and is only ever extended:
after any number of loop iterations it is the seed followed by charset
characters (never shortened), and each Extending transition appends
exactly the one accepted charset character. -/
theorem known_extends_by_charset (measure : String → ℚ) (thr : ℚ)
    (cs : List Char) (fuel : ℕ) (seed : String) :
    (∃ ext : List Char,
        ((runAux measure thr cs fuel seed).1).data = seed.data ++ ext
        ∧ ∀ c ∈ ext, c ∈ cs)
    ∧ ∀ (known : String) (c : Char),
        (scanCharset measure thr known cs []).1 = some c →
        c ∈ cs ∧ (runAux measure thr cs (fuel + 1) known).1
            = (runAux measure thr cs fuel (known.push c)).1 := by
  refine ⟨runAux_extends measure thr cs fuel seed, ?_⟩
  intro known c hc
  rcases hsc : scanCharset measure thr known cs [] with ⟨res, cands⟩
  rw [hsc] at hc
  cases res with
  | none => simp at hc
  | some c' =>
    have hcc : c' = c := by simpa using hc
    subst hcc
    have hfound := runAux_found measure thr cs fuel known c' cands hsc
    have hmem : c' ∈ cs := by
      have hspec := scanCharset_spec measure thr known cs []
      rw [hspec] at hsc
      exact List.mem_of_find?_eq_some (by simpa using congrArg Prod.fst hsc)
    exact ⟨hmem, by rw [hfound]⟩

/-- Witness for C8: on a one-character charset with a slow oracle, the
accepted character is in the charset and the loop appends exactly it. -/
theorem known_extends_by_charset_witness :
    'A' ∈ ['A']
    ∧ (runAux oneMeasure threshold ['A'] (0 + 1) "").1
        = (runAux oneMeasure threshold ['A'] 0 (String.push "" 'A')).1 :=
  (known_extends_by_charset oneMeasure threshold ['A'] 0 "").2 "" 'A' (by decide)

/-- C9 fails on the code: `avg_response_time` prints nothing inside its
trial loop, so there is no per-trial latency line.  Concretely, with
charset `['A']` and an instantaneous oracle, the run prints exactly one
latency line — the per-candidate average — even though measuring that one
candidate performs `attempts_per_char = 7` request trials; one line per
individual trial would require seven. -/
theorem no_per_trial_output :
    (run zeroMeasure threshold ['A'] 1 "").2.countP isTryingEvent = 1
    ∧ attempts_per_char = 7
    ∧ (run zeroMeasure threshold ['A'] 1 "").2.countP isTryingEvent
        ≠ 1 * attempts_per_char :=
  ⟨by decide, rfl, by decide⟩

/-- C9 amended: the console output contains one latency line per measured
candidate — the candidate's average over its trials, printed as it is
measured — a discovery announcement when a character is accepted, the
ranked top-5 slowest-candidates listing on stall, and a final line
reporting the discovered (or partial) secret. -/
theorem console_output (measure : String → ℚ) (thr : ℚ) (cs : List Char)
    (known : String) :
    ((runAux measure thr cs 1 known).2.filter isTryingEvent)
      = ((scanCharset measure thr known cs []).2.map
          fun pc => OutEvent.trying pc.1 pc.2)
    ∧ (∀ c, (scanCharset measure thr known cs []).1 = some c →
        OutEvent.foundChar c (known.push c) ∈ (runAux measure thr cs 1 known).2)
    ∧ ((scanCharset measure thr known cs []).1 = none →
        (runAux measure thr cs 1 known).2
          = ((scanCharset measure thr known cs []).2.map
              fun pc => OutEvent.trying pc.1 pc.2)
            ++ [OutEvent.stallHeader]
            ++ (((sortDesc (scanCharset measure thr known cs []).2).take 5).map
                fun pc => OutEvent.stallLine pc.1 pc.2)
            ++ [OutEvent.stallFooter])
    ∧ ∀ (fuel : ℕ) (seed : String),
        (run measure thr cs fuel seed).2.getLast?
          = some (OutEvent.secretLine (run measure thr cs fuel seed).1) := by
  rcases hsc : scanCharset measure thr known cs [] with ⟨res, cands⟩
  cases res with
  | some c =>
    have h1 := runAux_found measure thr cs 0 known c cands hsc
    refine ⟨?_, ?_, ?_, run_getLast measure thr cs⟩
    · rw [h1]
      simp [runAux, List.filter_append, filter_trying_map, isTryingEvent]
    · intro c' hc'
      have hcc : c = c' := by simpa using hc'
      subst hcc
      rw [h1]
      simp
    · intro hnone
      simp at hnone
  | none =>
    have h1 := runAux_stall measure thr cs 0 known cands hsc
    refine ⟨?_, ?_, ?_, run_getLast measure thr cs⟩
    · rw [h1]
      simp only [List.filter_append, filter_trying_map, filter_stallLine_map]
      simp [List.filter, isTryingEvent]
    · intro c' hc'
      simp at hc'
    · intro _
      rw [h1]

/-- Witness for C9 (amended): on a slow single-character charset, the
accepted character is announced on the console. -/
theorem console_output_witness :
    (scanCharset oneMeasure threshold "" ['A'] []).1 = some 'A'
    ∧ OutEvent.foundChar 'A' (String.push "" 'A')
        ∈ (runAux oneMeasure threshold ['A'] 1 "").2 :=
  ⟨by decide, (console_output oneMeasure threshold ['A'] "").2.1 'A' (by decide)⟩

/-- C10: the configured charset has 65 characters; at a stalled position
the transient candidates list (rebuilt empty at the start of each
position) holds exactly one (payload, average) pair per charset character,
in charset order, so the stall report prints exactly
`min 5 (charset length) = 5` ranked lines. -/
theorem stall_candidates_complete (measure : String → ℚ) (known : String)
    (h : (scanCharset measure threshold known charset []).1 = none) :
    charset.length = 65
    ∧ (scanCharset measure threshold known charset []).2
        = charset.map (fun c => (known.push c, measure (known.push c)))
    ∧ (scanCharset measure threshold known charset []).2.length = 65
    ∧ ((sortDesc (scanCharset measure threshold known charset []).2).take 5).length
        = min 5 charset.length
    ∧ min 5 charset.length = 5 := by
  have hspec := scanCharset_spec measure threshold known charset []
  have hfind : charset.find?
      (fun c => decide (threshold < measure (known.push c))) = none := by
    rw [hspec] at h
    simpa using h
  have htake : charset.takeWhile
      (fun c => decide (measure (known.push c) ≤ threshold)) = charset := by
    rw [List.takeWhile_eq_self_iff]
    intro x hx
    have hx' := List.find?_eq_none.mp hfind x hx
    simp only [decide_eq_true_eq] at hx' ⊢
    exact not_lt.mp hx'
  have hsnd : (scanCharset measure threshold known charset []).2
      = charset.map (fun c => (known.push c, measure (known.push c))) := by
    rw [hspec]
    simp [hfind, htake]
  refine ⟨by decide, hsnd, ?_, ?_, by decide⟩
  · rw [hsnd, List.length_map]
    decide
  · rw [List.length_take, sortDesc_length, hsnd, List.length_map]

/-- Witness for C10: with an instantaneous oracle the stalled position has
measured all 65 charset characters. -/
theorem stall_candidates_complete_witness :
    (scanCharset zeroMeasure threshold "C" charset []).2.length = 65 := by
  have h : (scanCharset zeroMeasure threshold "C" charset []).1 = none := by
    rw [scanCharset_spec]
    simp only [List.find?_eq_none]
    intro x hx
    simp only [zeroMeasure, decide_eq_true_eq]
    decide
  exact (stall_candidates_complete zeroMeasure "C" h).2.2.1

end Tic
